import Mathlib

/-!
Verification model of the droid2api core: the request/response obfuscator
(src/req-obfuscator.js, both file variants) and the proxy pool router
(src/proxy-manager.js).

Strings are modelled as Lean `String` (lists of characters); JS objects used
as dictionaries are modelled as association lists in insertion order, which
matches the iteration order of `Object.entries` for string keys.  The JS
`str.split(key).join(value)` idiom is modelled by `splitJoin`: leftmost,
non-overlapping literal replacement of `key` by `value`, with the JS
behaviour of `split("")` (interspersing) for an empty key.
-/

set_option maxHeartbeats 1000000

/-- JSON-shaped value tree: the payload shape processed by `processObject`
in src/req-obfuscator.js (null/undefined, booleans, numbers, strings,
arrays, plain objects with ordered keys). -/
inductive Value where
  | vnull : Value
  | vbool : Bool → Value
  | vnum : Int → Value
  | vstr : String → Value
  | varr : List Value → Value
  | vobj : List (String × Value) → Value

/-- A substitution dictionary: a JS object of string keys and string values,
kept in insertion order. -/
abbrev Dict := List (String × String)

/-- Result of `s.split("").join(v)` in JS: the separator `v` is inserted
between consecutive characters of `s` (not before the first or after the
last). -/
def emptyPatSub (v : List Char) : List Char → List Char
  | [] => []
  | [c] => [c]
  | c :: rest => c :: (v ++ emptyPatSub v rest)

/-- Fuel-indexed worker for leftmost non-overlapping replacement of the
nonempty key `k` by `v`.  The fuel only needs to dominate the input length;
it makes the recursion structural so that the kernel can evaluate it. -/
def replaceAllFuel (k v : List Char) : Nat → List Char → List Char
  | _, [] => []
  | 0, s => s
  | fuel + 1, c :: rest =>
    if k.isPrefixOf (c :: rest) then v ++ replaceAllFuel k v fuel (rest.drop (k.length - 1))
    else c :: replaceAllFuel k v fuel rest

/-- Model of the JS idiom `s.split(k).join(v)` used by `obfuscateString` and
`deobfuscateString`: leftmost non-overlapping replacement of `k` by `v`,
with the interspersing semantics of `split("")` when `k` is empty. -/
def splitJoin (k v s : List Char) : List Char :=
  if k = [] then emptyPatSub v s else replaceAllFuel k v s.length s

/-- `splitJoin` lifted to `String`. -/
def splitJoinS (k v s : String) : String :=
  ⟨splitJoin k.data v.data s.data⟩

/-- Substitution of the single character `c` by the word `p` at every
occurrence (used to reason about reverse dictionaries whose keys are single
characters). -/
def charSubst (c : Char) (p : List Char) : List Char → List Char
  | [] => []
  | a :: rest => (if a = c then p else [a]) ++ charSubst c p rest

/-- src/req-obfuscator.js `obfuscateString`: returns falsy input unchanged
(for strings, only `""` is falsy), otherwise applies every dictionary entry
in iteration order by `result.split(key).join(value)`. -/
def obfuscateString (requestReplacements : Dict) (str : String) : String :=
  if str = "" then str
  else requestReplacements.foldl (fun result kv => splitJoinS kv.1 kv.2 result) str

/-- src/req-obfuscator.js `deobfuscateString`: identical algorithm over the
response (reverse) dictionary. -/
def deobfuscateString (responseReplacements : Dict) (str : String) : String :=
  if str = "" then str
  else responseReplacements.foldl (fun result kv => splitJoinS kv.1 kv.2 result) str

mutual

/-- src/req-obfuscator.js `processObject`: recursively applies `transformFn`
to every string in the value tree, rebuilding arrays and objects in order
and passing all other scalars through unchanged. -/
def processObject (transformFn : String → String) : Value → Value
  | .vnull => .vnull
  | .vbool b => .vbool b
  | .vnum n => .vnum n
  | .vstr s => .vstr (transformFn s)
  | .varr xs => .varr (processList transformFn xs)
  | .vobj fs => .vobj (processFields transformFn fs)

/-- Elementwise `processObject` over an array (`obj.map(item => ...)`). -/
def processList (transformFn : String → String) : List Value → List Value
  | [] => []
  | v :: rest => processObject transformFn v :: processList transformFn rest

/-- Elementwise `processObject` over the values of an object
(`result[key] = processObject(value, transformFn)` in key order). -/
def processFields (transformFn : String → String) : List (String × Value) → List (String × Value)
  | [] => []
  | kv :: rest => (kv.1, processObject transformFn kv.2) :: processFields transformFn rest

end

mutual

/-- All strings occurring in a value tree, in traversal order. -/
def valueStrings : Value → List String
  | .vstr s => [s]
  | .varr xs => valueStringsList xs
  | .vobj fs => valueStringsFields fs
  | _ => []

/-- Strings of a list of value trees. -/
def valueStringsList : List Value → List String
  | [] => []
  | v :: rest => valueStrings v ++ valueStringsList rest

/-- Strings of the field values of an object. -/
def valueStringsFields : List (String × Value) → List String
  | [] => []
  | kv :: rest => valueStrings kv.2 ++ valueStringsFields rest

end

/-- src/req-obfuscator.js `obfuscateRequestBody`: identity short-circuit on
an empty forward dictionary, otherwise the tree transform with
`obfuscateString`. -/
def obfuscateRequestBody (requestReplacements : Dict) (body : Value) : Value :=
  if requestReplacements.length = 0 then body
  else processObject (obfuscateString requestReplacements) body

/-- src/req-obfuscator.js `deobfuscateResponseBody` (first file variant):
identity short-circuit on an empty reverse dictionary, otherwise the tree
transform with `deobfuscateString`. -/
def deobfuscateResponseBody (responseReplacements : Dict) (body : Value) : Value :=
  if responseReplacements.length = 0 then body
  else processObject (deobfuscateString responseReplacements) body

/-- One rule object of req-replace.json as consumed by `loadReplacements`:
`active` is the value of the JS test `ruleObj.active !== false` (default
true), `resObfs` the value of `ruleObj["res-obfs"] === true` (default
false), and `rule` the entry list of `ruleObj.rule` when it is an object,
`none` when missing or not an object. -/
structure RuleObj where
  active : Bool
  resObfs : Bool
  rule : Option (List (String × String))

/-- JS object property write `d[k] = v`: an existing key keeps its position
and gets the new value, a new key is appended. -/
def objInsert (k v : String) (d : Dict) : Dict :=
  if d.any (fun kv => kv.1 == k) then d.map (fun kv => if kv.1 == k then (kv.1, v) else kv)
  else d ++ [(k, v)]

/-- Sequential property writes for a list of entries
(`for (const [key, value] of Object.entries(ruleObj.rule))`). -/
def insertEntries (entries : List (String × String)) (d : Dict) : Dict :=
  entries.foldl (fun acc kv => objInsert kv.1 kv.2 acc) d

/-- Body of the first loop of src/req-obfuscator.js `loadReplacements`:
an active rule object with an object-valued `rule` writes all its entries
into the forward dictionary; any other rule object leaves it unchanged. -/
def requestStep (dict : Dict) (ruleObj : RuleObj) : Dict :=
  if ruleObj.active then
    match ruleObj.rule with
    | some entries => insertEntries entries dict
    | none => dict
  else dict

/-- Body of the second loop of src/req-obfuscator.js `loadReplacements`:
an active rule object with res-obfs enabled writes the swapped
(`value -> key`) entries into the reverse dictionary. -/
def responseStep (dict : Dict) (ruleObj : RuleObj) : Dict :=
  if ruleObj.active && ruleObj.resObfs then
    match ruleObj.rule with
    | some entries => insertEntries (entries.map (fun kv => (kv.2, kv.1))) dict
    | none => dict
  else dict

/-- First loop of src/req-obfuscator.js `loadReplacements`: builds the
forward dictionary from the active rules, writing `pattern -> replacement`
for every entry of every active rule object. -/
def buildRequestReplacements (rules : List RuleObj) : Dict :=
  rules.foldl requestStep []

/-- Second loop of src/req-obfuscator.js `loadReplacements`: builds the
reverse dictionary from the active rules with res-obfs enabled, writing
`replacement -> pattern` for every entry. -/
def buildResponseReplacements (rules : List RuleObj) : Dict :=
  rules.foldl responseStep []

/-- Strict left-biased choice on options (used to state dictionary lookup
through a sequence of overwrites). -/
def optOr : Option String → Option String → Option String
  | some v, _ => some v
  | none, o => o

/-- JS property read `d[k]` on an association-list dictionary. -/
def lookupDict : Dict → String → Option String
  | [], _ => none
  | kv :: rest, k => if kv.1 = k then some kv.2 else lookupDict rest k

/-- All `pattern -> replacement` entries contributed by active rules, in
configuration order (used to state the last-writer-wins characterisation of
the forward dictionary). -/
def forwardEntries (rules : List RuleObj) : List (String × String) :=
  rules.flatMap (fun r => if r.active then r.rule.getD [] else [])

/-- All `replacement -> pattern` entries contributed by active res-obfs
rules, in configuration order (used to state the last-writer-wins
characterisation of the reverse dictionary). -/
def reverseEntries (rules : List RuleObj) : List (String × String) :=
  rules.flatMap
    (fun r => if r.active && r.resObfs then (r.rule.getD []).map (fun kv => (kv.2, kv.1)) else [])

/-- `pat` occurs as a contiguous substring of `s`. -/
def isSubstring (pat s : String) : Prop :=
  pat.data <:+: s.data

instance (pat s : String) : Decidable (isSubstring pat s) := by
  unfold isSubstring
  infer_instance

/-- A rule list in which rule `i` is active, reversible (res-obfs), and maps
the pattern `prs[i].1` to the single-character replacement `prs[i].2`. -/
def mkRules (prs : List (String × Char)) : List RuleObj :=
  prs.map (fun pc => { active := true, resObfs := true, rule := some [(pc.1, String.singleton pc.2)] })

/-- The forward pass at character-list level: apply `splitJoin` for each
`(pattern, replacement character)` pair in order. -/
def listObf (prs : List (List Char × Char)) (l : List Char) : List Char :=
  prs.foldl (fun acc pc => splitJoin pc.1 [pc.2] acc) l

/-- The reverse pass at character-list level: substitute each replacement
character back to its pattern, in the same (insertion) order. -/
def listDeobf (prs : List (List Char × Char)) (l : List Char) : List Char :=
  prs.foldl (fun acc pc => charSubst pc.2 pc.1 acc) l

namespace DeobfuscateTransform

/-- src/req-obfuscator.js `DeobfuscateTransform.transform` (first file
variant): an empty reverse dictionary returns the chunk unchanged,
otherwise the chunk text is deobfuscated as one string.  A chunk is
modelled by its text (`Buffer.toString` / `Buffer.from` round the call). -/
def transform (responseReplacements : Dict) (chunk : String) : String :=
  if responseReplacements.length = 0 then chunk
  else deobfuscateString responseReplacements chunk

/-- src/req-obfuscator.js `DeobfuscateTransform.transformStream`: yields
`this.transform(chunk)` once per input chunk, in order. -/
def transformStream (responseReplacements : Dict) (stream : List String) : List String :=
  stream.map (transform responseReplacements)

end DeobfuscateTransform

namespace V2

/-- src/req-obfuscator.js, second file variant, `deobfuscateResponseBody`:
gated first by the global req.json flag `res-obfuscation`, then by the
emptiness of the reverse dictionary. -/
def deobfuscateResponseBody (resObfuscation : Bool) (reverseReplacements : Dict) (body : Value) : Value :=
  if !resObfuscation then body
  else if reverseReplacements.length = 0 then body
  else processObject (deobfuscateString reverseReplacements) body

/-- src/req-obfuscator.js, second file variant,
`DeobfuscateTransform.transform`: gated first by the `res-obfuscation`
flag, then by emptiness of the reverse dictionary. -/
def transform (resObfuscation : Bool) (reverseReplacements : Dict) (chunk : String) : String :=
  if !resObfuscation then chunk
  else if reverseReplacements.length = 0 then chunk
  else deobfuscateString reverseReplacements chunk

/-- src/req-obfuscator.js, second file variant,
`DeobfuscateTransform.transformStream`: one transformed chunk per input
chunk. -/
def transformStream (resObfuscation : Bool) (reverseReplacements : Dict) (stream : List String) : List String :=
  stream.map (transform resObfuscation reverseReplacements)

end V2

/-- One entry of the proxy pool: `url` is `some u` when the JS field is a
string, `none` when missing or not a string; `name` is the optional display
name. -/
structure ProxyEntry where
  url : Option String
  name : Option String
  deriving DecidableEq, Repr

/-- The module-level mutable state of src/proxy-manager.js: the round-robin
cursor `proxyIndex` and the snapshot of the last-seen pool.  The JS
`lastSnapshot` is the JSON serialisation of the pool (initially the empty
string, which matches no pool); it is modelled structurally as
`Option (List ProxyEntry)` with `none` for the initial state. -/
structure RouterState where
  proxyIndex : Nat
  lastSnapshot : Option (List ProxyEntry)
  deriving DecidableEq, Repr

/-- JS `String.prototype.trim`: strip leading and trailing whitespace. -/
def jsTrim (s : String) : String :=
  ⟨((s.data.dropWhile Char.isWhitespace).reverse.dropWhile Char.isWhitespace).reverse⟩

/-- The state at module initialisation (`proxyIndex = 0`, `lastSnapshot`
the empty string). -/
def initialRouterState : RouterState := ⟨0, none⟩

/-- One iteration of the selection loop of `getNextProxyAgent`: inspect the
pool entry at `index`; skip it when the url is missing or blank or when the
connector constructor fails (`agentOk` false); on success return the
connector (modelled by its url) paired with the entry and the advanced
cursor `(index + 1) % pool.length`. -/
def tryCandidate (agentOk : String → Bool) (proxies : List ProxyEntry) (index : Nat) :
    Option ((String × ProxyEntry) × Nat) :=
  match proxies.get? index with
  | none => none
  | some proxy =>
    match proxy.url with
    | none => none
    | some u =>
      if jsTrim u = "" then none
      else if agentOk u then some ((u, proxy), (index + 1) % proxies.length)
      else none

/-- Lines 24-29 of src/proxy-manager.js: when the serialised pool differs
from the recorded snapshot, reset the round-robin index to 0 and record the
new snapshot; otherwise keep the state. -/
def snapshotCheck (pool : List ProxyEntry) (st : RouterState) : RouterState :=
  if some pool ≠ st.lastSnapshot then ⟨0, some pool⟩ else st

/-- The selection loop of `getNextProxyAgent` (lines 31-51): try the
candidates at `(proxyIndex + attempt) % pool.length` for
`attempt = 0 .. pool.length - 1` and return the first success together with
the updated state, or report failure with the state unchanged beyond the
snapshot bookkeeping. -/
def scanPool (agentOk : String → Bool) (pool : List ProxyEntry) (st1 : RouterState) :
    Option (String × ProxyEntry) × RouterState :=
  match (List.range pool.length).findSome?
      (fun attempt => tryCandidate agentOk pool ((st1.proxyIndex + attempt) % pool.length)) with
  | some (res, newIndex) => (some res, ⟨newIndex, st1.lastSnapshot⟩)
  | none => (none, st1)

/-- src/proxy-manager.js `getNextProxyAgent`.  `agentOk u` models whether
`new HttpsProxyAgent(u)` succeeds; `proxies` is the config value, `none`
when it is not an array.  Returns the selected connector (if any) and the
updated module state.  A missing or empty pool returns immediately; a
changed pool resets the cursor and records the new snapshot; then at most
`pool.length` candidates are tried starting from the cursor, wrapping with
modulo arithmetic. -/
def getNextProxyAgent (agentOk : String → Bool) (proxies : Option (List ProxyEntry))
    (st : RouterState) : Option (String × ProxyEntry) × RouterState :=
  match proxies with
  | none => (none, st)
  | some pool =>
    if pool.length = 0 then (none, st)
    else scanPool agentOk pool (snapshotCheck pool st)

/-- Reachability invariant of the router state: whenever a pool has been
recorded as the last snapshot, the cursor is inside its bounds. -/
def RouterInv (st : RouterState) : Prop :=
  ∀ P, st.lastSnapshot = some P → st.proxyIndex < P.length

/-! ### String substitution: basic equations -/

theorem replaceAllFuel_nil (k v : List Char) (n : Nat) : replaceAllFuel k v n [] = [] := by
  cases n <;> rfl

theorem replaceAllFuel_congr (k v : List Char) :
    ∀ (N : Nat) (s : List Char) (n m : Nat), s.length ≤ N → s.length ≤ n → s.length ≤ m →
      replaceAllFuel k v n s = replaceAllFuel k v m s := by
  intro N
  induction N with
  | zero =>
    intro s n m hs _ _
    have hz : s = [] := by
      cases s with
      | nil => rfl
      | cons a t => simp at hs
    subst hz
    simp [replaceAllFuel_nil]
  | succ N ih =>
    intro s n m hs hn hm
    cases s with
    | nil => simp [replaceAllFuel_nil]
    | cons c rest =>
      simp only [List.length_cons] at hs hn hm
      obtain ⟨n', rfl⟩ : ∃ n', n = n' + 1 := ⟨n - 1, by omega⟩
      obtain ⟨m', rfl⟩ : ∃ m', m = m' + 1 := ⟨m - 1, by omega⟩
      simp only [replaceAllFuel]
      have hdrop : (rest.drop (k.length - 1)).length ≤ rest.length := by
        rw [List.length_drop]; omega
      by_cases hpre : k.isPrefixOf (c :: rest)
      · rw [if_pos hpre, if_pos hpre,
          ih (rest.drop (k.length - 1)) n' m' (by omega) (by omega) (by omega)]
      · rw [if_neg hpre, if_neg hpre, ih rest n' m' (by omega) (by omega) (by omega)]

theorem splitJoin_nil (k v : List Char) : splitJoin k v [] = [] := by
  unfold splitJoin
  split <;> rfl

theorem splitJoin_cons (k v : List Char) (hk : k ≠ []) (a : Char) (s : List Char) :
    splitJoin k v (a :: s) =
      if k.isPrefixOf (a :: s) then v ++ splitJoin k v (s.drop (k.length - 1))
      else a :: splitJoin k v s := by
  unfold splitJoin
  simp only [if_neg hk]
  have hcons : (a :: s).length = s.length + 1 := rfl
  rw [hcons]
  simp only [replaceAllFuel]
  by_cases hpre : k.isPrefixOf (a :: s)
  · rw [if_pos hpre, if_pos hpre]
    have : replaceAllFuel k v s.length (s.drop (k.length - 1))
        = replaceAllFuel k v (s.drop (k.length - 1)).length (s.drop (k.length - 1)) := by
      apply replaceAllFuel_congr k v s.length
      · rw [List.length_drop]; omega
      · rw [List.length_drop]; omega
      · exact Nat.le_refl _
    rw [this]
  · rw [if_neg hpre, if_neg hpre]

theorem charSubst_append (c : Char) (p l1 l2 : List Char) :
    charSubst c p (l1 ++ l2) = charSubst c p l1 ++ charSubst c p l2 := by
  induction l1 with
  | nil => rfl
  | cons a rest ih => simp [charSubst, ih]

theorem charSubst_of_not_mem (c : Char) (p : List Char) :
    ∀ l : List Char, c ∉ l → charSubst c p l = l := by
  intro l
  induction l with
  | nil => intro _; rfl
  | cons a rest ih =>
    intro h
    have ha : a ≠ c := fun hac => h (by rw [hac]; exact List.mem_cons_self c rest)
    have hr : c ∉ rest := fun hc => h (List.mem_cons_of_mem a hc)
    simp [charSubst, ha, ih hr]

theorem splitJoin_singleton (c : Char) (v : List Char) :
    ∀ s : List Char, splitJoin [c] v s = charSubst c v s := by
  intro s
  induction s with
  | nil => rw [splitJoin_nil]; rfl
  | cons a rest ih =>
    rw [splitJoin_cons [c] v (by simp) a rest]
    simp only [List.length_cons, List.length_nil, Nat.zero_add, Nat.sub_self, List.drop_zero]
    by_cases hac : a = c
    · subst hac
      have hpre : [a].isPrefixOf (a :: rest) = true := by simp [List.isPrefixOf]
      simp [hpre, ih, charSubst]
    · have hpre : [c].isPrefixOf (a :: rest) = false := by
        simp [List.isPrefixOf]
        exact fun h => absurd h.symm hac
      simp [hpre, ih, charSubst, hac]

theorem splitJoin_of_not_infix (k v : List Char) (hk : k ≠ []) :
    ∀ s : List Char, ¬ (k <:+: s) → splitJoin k v s = s := by
  intro s
  induction s with
  | nil => intro _; exact splitJoin_nil k v
  | cons a rest ih =>
    intro h
    rw [splitJoin_cons k v hk a rest]
    have hpre : ¬ (k.isPrefixOf (a :: rest) = true) := by
      intro hp
      exact h (List.isPrefixOf_iff_prefix.mp hp).isInfix
    rw [if_neg hpre, ih (fun hinf => h (List.infix_cons hinf))]

/-! ### Reverse-pass lemmas at character-list level -/

theorem singleton_infix_iff (a : Char) (l : List Char) : [a] <:+: l ↔ a ∈ l := by
  constructor
  · rintro ⟨s, t, rfl⟩
    simp
  · intro h
    obtain ⟨s, t, rfl⟩ := List.append_of_mem h
    exact ⟨s, t, by simp⟩

theorem string_data_inj (s t : String) (h : s.data = t.data) : s = t :=
  String.ext h

theorem string_data_eq_nil_iff (s : String) : s.data = [] ↔ s = "" := by
  constructor
  · intro h
    exact string_data_inj s "" h
  · intro h
    rw [h]

theorem listDeobf_cons (pc : List Char × Char) (prs : List (List Char × Char)) (l : List Char) :
    listDeobf (pc :: prs) l = listDeobf prs (charSubst pc.2 pc.1 l) := rfl

theorem listDeobf_append (prs : List (List Char × Char)) :
    ∀ l1 l2 : List Char, listDeobf prs (l1 ++ l2) = listDeobf prs l1 ++ listDeobf prs l2 := by
  induction prs with
  | nil => intro l1 l2; rfl
  | cons pc rest ih =>
    intro l1 l2
    rw [listDeobf_cons, listDeobf_cons, listDeobf_cons, charSubst_append, ih]

theorem listDeobf_of_forall_not_mem (prs : List (List Char × Char)) :
    ∀ l : List Char, (∀ pc ∈ prs, pc.2 ∉ l) → listDeobf prs l = l := by
  induction prs with
  | nil => intro l _; rfl
  | cons pc rest ih =>
    intro l h
    rw [listDeobf_cons, charSubst_of_not_mem pc.2 pc.1 l (h pc (List.mem_cons_self pc rest))]
    exact ih l (fun qc hqc => h qc (List.mem_cons_of_mem pc hqc))

theorem listDeobf_nil (prs : List (List Char × Char)) : listDeobf prs [] = [] :=
  listDeobf_of_forall_not_mem prs [] (by simp)

theorem listDeobf_single (prs : List (List Char × Char)) (p : List Char) (c : Char)
    (hmem : (p, c) ∈ prs)
    (hnodup : (prs.map Prod.snd).Nodup)
    (hcp : ∀ pc ∈ prs, ∀ qc ∈ prs, pc.2 ∉ qc.1) :
    listDeobf prs [c] = p := by
  obtain ⟨l1, l2, rfl⟩ := List.append_of_mem hmem
  have hdisj : ∀ qc ∈ l1, qc.2 ≠ c := by
    intro qc hqc hqc2
    rw [List.map_append, List.nodup_append] at hnodup
    exact hnodup.2.2 (List.mem_map_of_mem Prod.snd hqc) (by simp [hqc2])
  have h1 : listDeobf l1 [c] = [c] := by
    apply listDeobf_of_forall_not_mem
    intro qc hqc hmemc
    exact hdisj qc hqc (by simpa using hmemc)
  unfold listDeobf
  rw [List.foldl_append]
  have hfold1 : List.foldl (fun acc pc => charSubst pc.2 pc.1 acc) [c] l1 = [c] := h1
  rw [hfold1, List.foldl_cons]
  have hstep : charSubst (p, c).2 (p, c).1 [c] = p := by
    simp [charSubst]
  rw [hstep]
  exact listDeobf_of_forall_not_mem l2 p
    (fun qc hqc => hcp qc (by simp [hqc]) (p, c) hmem)

theorem listDeobf_splitJoin_absorb (prs : List (List Char × Char)) (p : List Char) (c : Char)
    (hp : p ≠ [])
    (h1 : listDeobf prs [c] = p)
    (h2 : listDeobf prs p = p) :
    ∀ (N : Nat) (u : List Char), u.length ≤ N →
      listDeobf prs (splitJoin p [c] u) = listDeobf prs u := by
  intro N
  induction N with
  | zero =>
    intro u hu
    have hz : u = [] := by
      cases u with
      | nil => rfl
      | cons a t => simp at hu
    subst hz
    rw [splitJoin_nil]
  | succ N ih =>
    intro u hu
    cases u with
    | nil => rw [splitJoin_nil]
    | cons a rest =>
      simp only [List.length_cons] at hu
      rw [splitJoin_cons p [c] hp a rest]
      by_cases hpre : p.isPrefixOf (a :: rest)
      · rw [if_pos hpre]
        have hinf : p <+: (a :: rest) := List.isPrefixOf_iff_prefix.mp hpre
        have hdec : p ++ (a :: rest).drop p.length = a :: rest := List.prefix_iff_eq_append.mp hinf
        have hdrop_eq : (a :: rest).drop p.length = rest.drop (p.length - 1) := by
          cases p with
          | nil => exact absurd rfl hp
          | cons q qs => simp
        have hlen : (rest.drop (p.length - 1)).length ≤ N := by
          rw [List.length_drop]; omega
        calc listDeobf prs ([c] ++ splitJoin p [c] (rest.drop (p.length - 1)))
            = listDeobf prs [c] ++ listDeobf prs (splitJoin p [c] (rest.drop (p.length - 1))) :=
              listDeobf_append prs _ _
          _ = p ++ listDeobf prs (rest.drop (p.length - 1)) := by
              rw [h1, ih (rest.drop (p.length - 1)) hlen]
          _ = listDeobf prs p ++ listDeobf prs (rest.drop (p.length - 1)) := by rw [h2]
          _ = listDeobf prs (p ++ (a :: rest).drop p.length) := by
              rw [hdrop_eq, listDeobf_append]
          _ = listDeobf prs (a :: rest) := by rw [hdec]
      · rw [if_neg hpre]
        have e1 : a :: splitJoin p [c] rest = [a] ++ splitJoin p [c] rest := rfl
        have e2 : a :: rest = [a] ++ rest := rfl
        rw [e1, e2, listDeobf_append, listDeobf_append, ih rest (by omega)]

theorem listObf_cons (pc : List Char × Char) (prs : List (List Char × Char)) (l : List Char) :
    listObf (pc :: prs) l = listObf prs (splitJoin pc.1 [pc.2] l) := rfl

theorem listDeobf_listObf (prs : List (List Char × Char))
    (hpne : ∀ pc ∈ prs, pc.1 ≠ [])
    (hnodup : (prs.map Prod.snd).Nodup)
    (hcp : ∀ pc ∈ prs, ∀ qc ∈ prs, pc.2 ∉ qc.1) :
    ∀ sub : List (List Char × Char), (∀ pc ∈ sub, pc ∈ prs) →
      ∀ l : List Char, listDeobf prs (listObf sub l) = listDeobf prs l := by
  intro sub
  induction sub with
  | nil => intro _ l; rfl
  | cons pc rest ih =>
    intro hsub l
    have hm : pc ∈ prs := hsub pc (List.mem_cons_self pc rest)
    rw [listObf_cons, ih (fun qc hqc => hsub qc (List.mem_cons_of_mem pc hqc))]
    exact listDeobf_splitJoin_absorb prs pc.1 pc.2 (hpne pc hm)
      (listDeobf_single prs pc.1 pc.2 hm hnodup hcp)
      (listDeobf_of_forall_not_mem prs pc.1 (fun qc hqc => hcp qc hqc pc hm))
      l.length l (Nat.le_refl _)

theorem listDeobf_listObf_self (prs : List (List Char × Char)) (l : List Char)
    (hpne : ∀ pc ∈ prs, pc.1 ≠ [])
    (hnodup : (prs.map Prod.snd).Nodup)
    (hcp : ∀ pc ∈ prs, ∀ qc ∈ prs, pc.2 ∉ qc.1)
    (hl : ∀ pc ∈ prs, pc.2 ∉ l) :
    listDeobf prs (listObf prs l) = l := by
  rw [listDeobf_listObf prs hpne hnodup hcp prs (fun _ h => h) l,
    listDeobf_of_forall_not_mem prs l hl]

/-! ### Connecting the string functions to the list-level passes -/

theorem foldl_splitJoinS_data (d : Dict) :
    ∀ s : String, (d.foldl (fun result kv => splitJoinS kv.1 kv.2 result) s).data
      = d.foldl (fun acc kv => splitJoin kv.1.data kv.2.data acc) s.data := by
  induction d with
  | nil => intro s; rfl
  | cons kv rest ih =>
    intro s
    rw [List.foldl_cons, List.foldl_cons, ih]
    rfl

theorem foldl_splitJoin_data_nil (d : Dict) :
    d.foldl (fun acc kv => splitJoin kv.1.data kv.2.data acc) [] = [] := by
  induction d with
  | nil => rfl
  | cons kv rest ih => rw [List.foldl_cons, splitJoin_nil]; exact ih

theorem obfuscateString_data (d : Dict) (s : String) :
    (obfuscateString d s).data
      = d.foldl (fun acc kv => splitJoin kv.1.data kv.2.data acc) s.data := by
  unfold obfuscateString
  by_cases hs : s = ""
  · rw [if_pos hs, hs]
    have hnil : ("" : String).data = [] := rfl
    rw [hnil, foldl_splitJoin_data_nil]
  · rw [if_neg hs]
    exact foldl_splitJoinS_data d s

theorem deobfuscateString_eq_obfuscateString : deobfuscateString = obfuscateString := rfl

theorem objInsert_of_not_mem_keys (k v : String) (d : Dict) (h : ∀ kv ∈ d, kv.1 ≠ k) :
    objInsert k v d = d ++ [(k, v)] := by
  unfold objInsert
  have hany : d.any (fun kv => kv.1 == k) = false := by
    rw [List.any_eq_false]
    intro kv hkv
    simp [h kv hkv]
  simp [hany]

theorem insertEntries_of_fresh :
    ∀ (ps : List (String × String)) (d : Dict),
      (ps.map Prod.fst).Nodup → (∀ kv ∈ ps, ∀ kv2 ∈ d, kv2.1 ≠ kv.1) →
      insertEntries ps d = d ++ ps := by
  intro ps
  induction ps with
  | nil => intro d _ _; simp [insertEntries]
  | cons e rest ih =>
    intro d hnd hfresh
    unfold insertEntries
    rw [List.foldl_cons]
    have he : objInsert e.1 e.2 d = d ++ [(e.1, e.2)] :=
      objInsert_of_not_mem_keys e.1 e.2 d
        (fun kv2 h2 => hfresh e (List.mem_cons_self e rest) kv2 h2)
    rw [he]
    have hnd' : (rest.map Prod.fst).Nodup := by
      rw [List.map_cons, List.nodup_cons] at hnd
      exact hnd.2
    have hhead : e.1 ∉ rest.map Prod.fst := by
      rw [List.map_cons, List.nodup_cons] at hnd
      exact hnd.1
    have hfresh' : ∀ kv ∈ rest, ∀ kv2 ∈ d ++ [(e.1, e.2)], kv2.1 ≠ kv.1 := by
      intro kv hkv kv2 hkv2
      rcases List.mem_append.mp hkv2 with h2 | h2
      · exact hfresh kv (List.mem_cons_of_mem e hkv) kv2 h2
      · have : kv2 = (e.1, e.2) := by simpa using h2
        rw [this]
        intro hbad
        exact hhead (hbad ▸ List.mem_map_of_mem Prod.fst hkv)
    have := ih (d ++ [(e.1, e.2)]) hnd' hfresh'
    unfold insertEntries at this
    rw [this, List.append_assoc]
    rfl

theorem string_singleton_injective : Function.Injective String.singleton := by
  intro a b h
  have : (String.singleton a).data = (String.singleton b).data := by rw [h]
  simpa using this

theorem buildRequestReplacements_mkRules (prs : List (String × Char))
    (hnd : (prs.map Prod.fst).Nodup) :
    buildRequestReplacements (mkRules prs)
      = prs.map (fun pc => (pc.1, String.singleton pc.2)) := by
  suffices h : ∀ (ps : List (String × Char)) (d : Dict), (ps.map Prod.fst).Nodup →
      (∀ pc ∈ ps, ∀ kv ∈ d, kv.1 ≠ pc.1) →
      (mkRules ps).foldl requestStep d = d ++ ps.map (fun pc => (pc.1, String.singleton pc.2)) by
    have h0 := h prs [] hnd (by simp)
    simpa [buildRequestReplacements] using h0
  intro ps
  induction ps with
  | nil => intro d _ _; simp [mkRules]
  | cons pc rest ih =>
    intro d hnd2 hfresh
    have hmk : mkRules (pc :: rest)
        = ⟨true, true, some [(pc.1, String.singleton pc.2)]⟩ :: mkRules rest := rfl
    rw [hmk, List.foldl_cons]
    have hstep : requestStep d ⟨true, true, some [(pc.1, String.singleton pc.2)]⟩
        = objInsert pc.1 (String.singleton pc.2) d := rfl
    rw [hstep, objInsert_of_not_mem_keys pc.1 (String.singleton pc.2) d
      (fun kv2 h2 => hfresh pc (List.mem_cons_self pc rest) kv2 h2)]
    have hnd' : (rest.map Prod.fst).Nodup := by
      rw [List.map_cons, List.nodup_cons] at hnd2
      exact hnd2.2
    have hhead : pc.1 ∉ rest.map Prod.fst := by
      rw [List.map_cons, List.nodup_cons] at hnd2
      exact hnd2.1
    have hfresh' : ∀ qc ∈ rest, ∀ kv2 ∈ d ++ [(pc.1, String.singleton pc.2)], kv2.1 ≠ qc.1 := by
      intro qc hqc kv2 hkv2
      rcases List.mem_append.mp hkv2 with h2 | h2
      · exact hfresh qc (List.mem_cons_of_mem pc hqc) kv2 h2
      · have : kv2 = (pc.1, String.singleton pc.2) := by simpa using h2
        rw [this]
        intro hbad
        exact hhead (hbad ▸ List.mem_map_of_mem Prod.fst hqc)
    rw [ih (d ++ [(pc.1, String.singleton pc.2)]) hnd' hfresh', List.append_assoc]
    rfl

theorem buildResponseReplacements_mkRules (prs : List (String × Char))
    (hnd : (prs.map Prod.snd).Nodup) :
    buildResponseReplacements (mkRules prs)
      = prs.map (fun pc => (String.singleton pc.2, pc.1)) := by
  suffices h : ∀ (ps : List (String × Char)) (d : Dict),
      ((ps.map (fun pc => (String.singleton pc.2, pc.1))).map Prod.fst).Nodup →
      (∀ pc ∈ ps, ∀ kv ∈ d, kv.1 ≠ String.singleton pc.2) →
      (mkRules ps).foldl responseStep d = d ++ ps.map (fun pc => (String.singleton pc.2, pc.1)) by
    have hkeys : ((prs.map (fun pc => (String.singleton pc.2, pc.1))).map Prod.fst).Nodup := by
      rw [List.map_map]
      have : (Prod.fst ∘ fun pc : String × Char => (String.singleton pc.2, pc.1))
          = (String.singleton ∘ Prod.snd) := rfl
      rw [this, ← List.map_map]
      exact hnd.map string_singleton_injective
    have h0 := h prs [] hkeys (by simp)
    simpa [buildResponseReplacements] using h0
  intro ps
  induction ps with
  | nil => intro d _ _; simp [mkRules]
  | cons pc rest ih =>
    intro d hnd2 hfresh
    have hmk : mkRules (pc :: rest)
        = ⟨true, true, some [(pc.1, String.singleton pc.2)]⟩ :: mkRules rest := rfl
    rw [hmk, List.foldl_cons]
    have hstep : responseStep d ⟨true, true, some [(pc.1, String.singleton pc.2)]⟩
        = objInsert (String.singleton pc.2) pc.1 d := rfl
    rw [hstep, objInsert_of_not_mem_keys (String.singleton pc.2) pc.1 d
      (fun kv2 h2 => hfresh pc (List.mem_cons_self pc rest) kv2 h2)]
    rw [List.map_cons, List.map_cons, List.nodup_cons] at hnd2
    have hfresh' : ∀ qc ∈ rest, ∀ kv2 ∈ d ++ [(String.singleton pc.2, pc.1)],
        kv2.1 ≠ String.singleton qc.2 := by
      intro qc hqc kv2 hkv2
      rcases List.mem_append.mp hkv2 with h2 | h2
      · exact hfresh qc (List.mem_cons_of_mem pc hqc) kv2 h2
      · have hkv : kv2 = (String.singleton pc.2, pc.1) := by simpa using h2
        rw [hkv]
        intro hbad
        exact hnd2.1 (hbad ▸ List.mem_map_of_mem Prod.fst
          (List.mem_map_of_mem (fun pc => (String.singleton pc.2, pc.1)) hqc))
    rw [ih (d ++ [(String.singleton pc.2, pc.1)]) hnd2.2 hfresh', List.append_assoc]
    rfl

theorem obfuscateString_mk_data (prs : List (String × Char)) (s : String) :
    (obfuscateString (prs.map (fun pc => (pc.1, String.singleton pc.2))) s).data
      = listObf (prs.map (fun pc => (pc.1.data, pc.2))) s.data := by
  rw [obfuscateString_data]
  unfold listObf
  rw [List.foldl_map, List.foldl_map]
  rfl

theorem deobfuscateString_mk_data (prs : List (String × Char)) (s : String) :
    (deobfuscateString (prs.map (fun pc => (String.singleton pc.2, pc.1))) s).data
      = listDeobf (prs.map (fun pc => (pc.1.data, pc.2))) s.data := by
  rw [deobfuscateString_eq_obfuscateString, obfuscateString_data]
  unfold listDeobf
  rw [List.foldl_map, List.foldl_map]
  have hfun : (fun (acc : List Char) (pc : String × Char)
        => splitJoin (String.singleton pc.2).data pc.1.data acc)
      = (fun acc pc => charSubst pc.2 pc.1.data acc) := by
    funext acc pc
    exact splitJoin_singleton pc.2 pc.1.data acc
  exact congrArg (fun x => List.foldl x s.data prs) hfun

theorem roundtripString (prs : List (String × Char)) (s : String)
    (hpne : ∀ pc ∈ prs, pc.1 ≠ "")
    (hfnd : (prs.map Prod.fst).Nodup)
    (hsnd : (prs.map Prod.snd).Nodup)
    (hcp : ∀ pc ∈ prs, ∀ qc ∈ prs, pc.2 ∉ qc.1.data)
    (hs : ∀ pc ∈ prs, pc.2 ∉ s.data) :
    deobfuscateString (buildResponseReplacements (mkRules prs))
      (obfuscateString (buildRequestReplacements (mkRules prs)) s) = s := by
  apply string_data_inj
  rw [buildRequestReplacements_mkRules prs hfnd, buildResponseReplacements_mkRules prs hsnd,
    deobfuscateString_mk_data, obfuscateString_mk_data]
  apply listDeobf_listObf_self
  · intro pc hpc
    obtain ⟨qc, hqc, rfl⟩ := List.mem_map.mp hpc
    intro hnil
    exact hpne qc hqc ((string_data_eq_nil_iff qc.1).mp hnil)
  · rw [List.map_map]
    exact hsnd
  · intro pc hpc qc hqc
    obtain ⟨pc0, hpc0, rfl⟩ := List.mem_map.mp hpc
    obtain ⟨qc0, hqc0, rfl⟩ := List.mem_map.mp hqc
    exact hcp pc0 hpc0 qc0 hqc0
  · intro pc hpc
    obtain ⟨pc0, hpc0, rfl⟩ := List.mem_map.mp hpc
    exact hs pc0 hpc0

/-! ### Value-tree lemmas -/

theorem value_induction (motive : Value → Prop)
    (hnull : motive .vnull)
    (hbool : ∀ b, motive (.vbool b))
    (hnum : ∀ n, motive (.vnum n))
    (hstr : ∀ s, motive (.vstr s))
    (harr : ∀ xs, (∀ v ∈ xs, motive v) → motive (.varr xs))
    (hobj : ∀ fs, (∀ kv ∈ fs, motive kv.2) → motive (.vobj fs)) :
    ∀ v, motive v := by
  have key : ∀ (n : Nat) (v : Value), sizeOf v ≤ n → motive v := by
    intro n
    induction n with
    | zero =>
      intro v hv
      cases v <;> simp at hv
    | succ n ih =>
      intro v hv
      cases v with
      | vnull => exact hnull
      | vbool b => exact hbool b
      | vnum m => exact hnum m
      | vstr s => exact hstr s
      | varr xs =>
        refine harr xs (fun w hw => ih w ?_)
        have h1 : sizeOf w < sizeOf xs := List.sizeOf_lt_of_mem hw
        have h2 : sizeOf (Value.varr xs) = 1 + sizeOf xs := by simp
        omega
      | vobj fs =>
        refine hobj fs (fun kv hkv => ih kv.2 ?_)
        have h1 : sizeOf kv < sizeOf fs := List.sizeOf_lt_of_mem hkv
        have h2 : sizeOf kv = 1 + sizeOf kv.1 + sizeOf kv.2 := by
          cases kv
          simp
        have h3 : sizeOf (Value.vobj fs) = 1 + sizeOf fs := by simp
        omega
  intro v
  exact key (sizeOf v) v (Nat.le_refl _)

theorem processList_congr_comp (f g : String → String) (xs : List Value)
    (h : ∀ v ∈ xs, processObject g (processObject f v) = processObject (fun s => g (f s)) v) :
    processList g (processList f xs) = processList (fun s => g (f s)) xs := by
  induction xs with
  | nil => rfl
  | cons v rest ih =>
    simp only [processList]
    rw [h v (List.mem_cons_self v rest),
      ih (fun w hw => h w (List.mem_cons_of_mem v hw))]

theorem processFields_congr_comp (f g : String → String) (fs : List (String × Value))
    (h : ∀ kv ∈ fs, processObject g (processObject f kv.2) = processObject (fun s => g (f s)) kv.2) :
    processFields g (processFields f fs) = processFields (fun s => g (f s)) fs := by
  induction fs with
  | nil => rfl
  | cons kv rest ih =>
    simp only [processFields]
    rw [h kv (List.mem_cons_self kv rest),
      ih (fun kw hw => h kw (List.mem_cons_of_mem kv hw))]

theorem processObject_comp (f g : String → String) :
    ∀ v, processObject g (processObject f v) = processObject (fun s => g (f s)) v := by
  intro v
  refine value_induction
    (fun v => processObject g (processObject f v) = processObject (fun s => g (f s)) v)
    rfl (fun _ => rfl) (fun _ => rfl) (fun _ => rfl) ?_ ?_ v
  · intro xs ih
    simp only [processObject]
    rw [processList_congr_comp f g xs ih]
  · intro fs ih
    simp only [processObject]
    rw [processFields_congr_comp f g fs ih]

theorem processList_id_of (f : String → String) (xs : List Value)
    (hstep : ∀ v ∈ xs, (∀ s ∈ valueStrings v, f s = s) → processObject f v = v)
    (h : ∀ s ∈ valueStringsList xs, f s = s) :
    processList f xs = xs := by
  induction xs with
  | nil => rfl
  | cons v rest ih =>
    simp only [processList]
    have hv : ∀ s ∈ valueStrings v, f s = s := by
      intro s hs
      exact h s (by simp only [valueStringsList]; exact List.mem_append_left _ hs)
    have hrest : ∀ s ∈ valueStringsList rest, f s = s := by
      intro s hs
      exact h s (by simp only [valueStringsList]; exact List.mem_append_right _ hs)
    rw [hstep v (List.mem_cons_self v rest) hv,
      ih (fun w hw => hstep w (List.mem_cons_of_mem v hw)) hrest]

theorem processFields_id_of (f : String → String) (fs : List (String × Value))
    (hstep : ∀ kv ∈ fs, (∀ s ∈ valueStrings kv.2, f s = s) → processObject f kv.2 = kv.2)
    (h : ∀ s ∈ valueStringsFields fs, f s = s) :
    processFields f fs = fs := by
  induction fs with
  | nil => rfl
  | cons kv rest ih =>
    simp only [processFields]
    have hv : ∀ s ∈ valueStrings kv.2, f s = s := by
      intro s hs
      exact h s (by simp only [valueStringsFields]; exact List.mem_append_left _ hs)
    have hrest : ∀ s ∈ valueStringsFields rest, f s = s := by
      intro s hs
      exact h s (by simp only [valueStringsFields]; exact List.mem_append_right _ hs)
    rw [hstep kv (List.mem_cons_self kv rest) hv,
      ih (fun kw hw => hstep kw (List.mem_cons_of_mem kv hw)) hrest]

theorem processObject_id_of (f : String → String) :
    ∀ v, (∀ s ∈ valueStrings v, f s = s) → processObject f v = v := by
  refine value_induction
    (fun v => (∀ s ∈ valueStrings v, f s = s) → processObject f v = v)
    (fun _ => rfl) (fun _ _ => rfl) (fun _ _ => rfl) ?_ ?_ ?_
  · intro s h
    have : f s = s := h s (by simp [valueStrings])
    simp only [processObject, this]
  · intro xs ih h
    simp only [processObject]
    rw [processList_id_of f xs ih (by simpa [valueStrings] using h)]
  · intro fs ih h
    simp only [processObject]
    rw [processFields_id_of f fs ih (by simpa [valueStrings] using h)]

/-! ### Dictionary lookup characterisation (rule compiler) -/

theorem optOr_none_right (a : Option String) : optOr a none = a := by
  cases a <;> rfl

theorem optOr_assoc (a b c : Option String) : optOr (optOr a b) c = optOr a (optOr b c) := by
  cases a <;> rfl

theorem lookupDict_append (d1 d2 : Dict) (k : String) :
    lookupDict (d1 ++ d2) k = optOr (lookupDict d1 k) (lookupDict d2 k) := by
  induction d1 with
  | nil => rfl
  | cons kv rest ih =>
    simp only [List.cons_append, lookupDict]
    by_cases h : kv.1 = k
    · rw [if_pos h, if_pos h]; rfl
    · rw [if_neg h, if_neg h]; exact ih

theorem lookupDict_eq_none (d : Dict) (k : String) (h : ∀ kv ∈ d, kv.1 ≠ k) :
    lookupDict d k = none := by
  induction d with
  | nil => rfl
  | cons kv rest ih =>
    simp only [lookupDict, if_neg (h kv (List.mem_cons_self kv rest))]
    exact ih (fun kw hw => h kw (List.mem_cons_of_mem kv hw))

theorem lookupDict_map_update_ne (k v q : String) (hq : q ≠ k) :
    ∀ d : Dict,
      lookupDict (d.map (fun kv => if kv.1 == k then (kv.1, v) else kv)) q = lookupDict d q := by
  intro d
  induction d with
  | nil => rfl
  | cons kv rest ih =>
    simp only [List.map_cons]
    by_cases h : (kv.1 == k) = true
    · rw [if_pos h]
      have hk : kv.1 = k := eq_of_beq h
      have hne : kv.1 ≠ q := fun he => hq (he.symm.trans hk)
      simp only [lookupDict, if_neg hne]
      exact ih
    · rw [if_neg h]
      simp only [lookupDict]
      by_cases h2 : kv.1 = q
      · rw [if_pos h2, if_pos h2]
      · rw [if_neg h2, if_neg h2]; exact ih

theorem lookupDict_map_update_eq (k v : String) :
    ∀ d : Dict, d.any (fun kv => kv.1 == k) = true →
      lookupDict (d.map (fun kv => if kv.1 == k then (kv.1, v) else kv)) k = some v := by
  intro d
  induction d with
  | nil => intro h; simp at h
  | cons kv rest ih =>
    intro hany
    simp only [List.map_cons]
    by_cases h : (kv.1 == k) = true
    · rw [if_pos h]
      have hk : kv.1 = k := eq_of_beq h
      simp only [lookupDict, if_pos hk]
    · rw [if_neg h]
      have hne : kv.1 ≠ k := fun he => h (by simp [he])
      simp only [lookupDict, if_neg hne]
      apply ih
      simp only [List.any_cons, h, Bool.false_or] at hany
      exact hany

theorem lookupDict_objInsert (k v q : String) (d : Dict) :
    lookupDict (objInsert k v d) q = if q = k then some v else lookupDict d q := by
  unfold objInsert
  by_cases hany : d.any (fun kv => kv.1 == k) = true
  · rw [if_pos hany]
    by_cases hq : q = k
    · subst hq
      rw [if_pos rfl]
      exact lookupDict_map_update_eq q v d hany
    · rw [if_neg hq]
      exact lookupDict_map_update_ne k v q hq d
  · rw [if_neg hany, lookupDict_append]
    have hall : ∀ kv ∈ d, ¬((kv.1 == k) = true) :=
      List.any_eq_false.mp (Bool.eq_false_iff.mpr hany)
    by_cases hq : q = k
    · subst hq
      have hdk : lookupDict d q = none :=
        lookupDict_eq_none d q (fun kv hkv he => hall kv hkv (by simp [he]))
      rw [hdk, if_pos rfl]
      simp [lookupDict, optOr]
    · rw [if_neg hq]
      have h1 : lookupDict [(k, v)] q = none := by
        simp only [lookupDict, if_neg (fun he : k = q => hq he.symm)]
      rw [h1, optOr_none_right]

theorem lookupDict_insertEntries (k : String) :
    ∀ (es : List (String × String)) (d : Dict),
      lookupDict (insertEntries es d) k = optOr (lookupDict es.reverse k) (lookupDict d k) := by
  intro es
  induction es with
  | nil => intro d; rfl
  | cons e rest ih =>
    intro d
    have hstep : insertEntries (e :: rest) d = insertEntries rest (objInsert e.1 e.2 d) := rfl
    rw [hstep, ih (objInsert e.1 e.2 d), lookupDict_objInsert, List.reverse_cons,
      lookupDict_append, optOr_assoc]
    congr 1
    by_cases hk : k = e.1
    · simp only [lookupDict, if_pos rfl, if_pos hk, hk]
      rfl
    · simp only [lookupDict, if_neg (fun he : e.1 = k => hk he.symm), if_neg hk]
      rfl

theorem lookupDict_foldl_requestStep (k : String) :
    ∀ (rules : List RuleObj) (d : Dict),
      lookupDict (rules.foldl requestStep d) k
        = optOr (lookupDict (forwardEntries rules).reverse k) (lookupDict d k) := by
  intro rules
  induction rules with
  | nil => intro d; rfl
  | cons r rest ih =>
    intro d
    rw [List.foldl_cons, ih]
    have hfe : forwardEntries (r :: rest)
        = (if r.active then r.rule.getD [] else []) ++ forwardEntries rest := by
      simp [forwardEntries]
    rw [hfe, List.reverse_append, lookupDict_append, optOr_assoc]
    congr 1
    cases hact : r.active with
    | false =>
      simp only [requestStep, hact, if_false, Bool.false_eq_true]
      rfl
    | true =>
      cases hrule : r.rule with
      | none =>
        simp only [requestStep, hact, if_true, hrule, Option.getD_none]
        rfl
      | some es =>
        simp only [requestStep, hact, if_true, hrule, Option.getD_some]
        exact lookupDict_insertEntries k es d

theorem lookupDict_foldl_responseStep (k : String) :
    ∀ (rules : List RuleObj) (d : Dict),
      lookupDict (rules.foldl responseStep d) k
        = optOr (lookupDict (reverseEntries rules).reverse k) (lookupDict d k) := by
  intro rules
  induction rules with
  | nil => intro d; rfl
  | cons r rest ih =>
    intro d
    rw [List.foldl_cons, ih]
    have hfe : reverseEntries (r :: rest)
        = (if r.active && r.resObfs then (r.rule.getD []).map (fun kv => (kv.2, kv.1)) else [])
          ++ reverseEntries rest := by
      simp [reverseEntries]
    rw [hfe, List.reverse_append, lookupDict_append, optOr_assoc]
    congr 1
    cases hact : r.active && r.resObfs with
    | false =>
      simp only [responseStep, hact, if_false, Bool.false_eq_true]
      rfl
    | true =>
      cases hrule : r.rule with
      | none =>
        simp only [responseStep, hact, if_true, hrule, Option.getD_none, List.map_nil]
        rfl
      | some es =>
        simp only [responseStep, hact, if_true, hrule, Option.getD_some]
        exact lookupDict_insertEntries k (es.map (fun kv => (kv.2, kv.1))) d

theorem buildRequestReplacements_skip_inactive (l1 l2 : List RuleObj) (r : RuleObj)
    (h : r.active = false) :
    buildRequestReplacements (l1 ++ r :: l2) = buildRequestReplacements (l1 ++ l2) := by
  unfold buildRequestReplacements
  rw [List.foldl_append, List.foldl_append, List.foldl_cons]
  have hr : requestStep (List.foldl requestStep [] l1) r = List.foldl requestStep [] l1 := by
    simp [requestStep, h]
  rw [hr]

theorem buildResponseReplacements_skip_inactive (l1 l2 : List RuleObj) (r : RuleObj)
    (h : r.active = false) :
    buildResponseReplacements (l1 ++ r :: l2) = buildResponseReplacements (l1 ++ l2) := by
  unfold buildResponseReplacements
  rw [List.foldl_append, List.foldl_append, List.foldl_cons]
  have hr : responseStep (List.foldl responseStep [] l1) r = List.foldl responseStep [] l1 := by
    simp [responseStep, h]
  rw [hr]

/-! ### Router lemmas -/

theorem tryCandidate_index_lt (agentOk : String → Bool) (proxies : List ProxyEntry) (index : Nat)
    (r : (String × ProxyEntry) × Nat) (h : tryCandidate agentOk proxies index = some r) :
    r.2 < proxies.length := by
  unfold tryCandidate at h
  split at h
  · exact absurd h (by simp)
  · rename_i proxy hget
    have hlt : index < proxies.length := by
      by_contra hge
      rw [List.get?_eq_none.mpr (Nat.le_of_not_lt hge)] at hget
      exact absurd hget (by simp)
    have hlen : 0 < proxies.length := Nat.lt_of_le_of_lt (Nat.zero_le index) hlt
    split at h
    · exact absurd h (by simp)
    · rename_i u hurl
      split at h
      · exact absurd h (by simp)
      · split at h
        · have hr : ((u, proxy), (index + 1) % proxies.length) = r := Option.some.inj h
          rw [← hr]
          exact Nat.mod_lt _ hlen
        · exact absurd h (by simp)

theorem snapshotCheck_lastSnapshot (pool : List ProxyEntry) (st : RouterState) :
    (snapshotCheck pool st).lastSnapshot = some pool := by
  unfold snapshotCheck
  by_cases h : some pool ≠ st.lastSnapshot
  · rw [if_pos h]
  · rw [if_neg h]
    push_neg at h
    exact h.symm

theorem snapshotCheck_idx_lt (pool : List ProxyEntry) (st : RouterState)
    (hpool : pool ≠ []) (hinv : RouterInv st) :
    (snapshotCheck pool st).proxyIndex < pool.length := by
  unfold snapshotCheck
  by_cases h : some pool ≠ st.lastSnapshot
  · rw [if_pos h]
    exact List.length_pos.mpr hpool
  · rw [if_neg h]
    push_neg at h
    exact hinv pool h.symm

theorem snapshotCheck_of_changed (pool : List ProxyEntry) (st : RouterState)
    (h : some pool ≠ st.lastSnapshot) : snapshotCheck pool st = ⟨0, some pool⟩ :=
  if_pos h

theorem snapshotCheck_fixed (pool : List ProxyEntry) :
    snapshotCheck pool ⟨0, some pool⟩ = ⟨0, some pool⟩ :=
  if_neg (fun h => h rfl)

theorem scanPool_idx_lt (agentOk : String → Bool) (pool : List ProxyEntry) (st1 : RouterState)
    (h : st1.proxyIndex < pool.length) :
    (scanPool agentOk pool st1).2.proxyIndex < pool.length := by
  unfold scanPool
  cases hfind : (List.range pool.length).findSome?
      (fun attempt => tryCandidate agentOk pool ((st1.proxyIndex + attempt) % pool.length)) with
  | none => simpa using h
  | some r =>
    obtain ⟨attempt, _, heq⟩ := List.exists_of_findSome?_eq_some hfind
    cases r with
    | mk res newIndex =>
      have := tryCandidate_index_lt agentOk pool _ (res, newIndex) heq
      simpa using this

theorem scanPool_lastSnapshot (agentOk : String → Bool) (pool : List ProxyEntry)
    (st1 : RouterState) : (scanPool agentOk pool st1).2.lastSnapshot = st1.lastSnapshot := by
  unfold scanPool
  cases hfind : (List.range pool.length).findSome?
      (fun attempt => tryCandidate agentOk pool ((st1.proxyIndex + attempt) % pool.length)) with
  | none => rfl
  | some r => cases r with | mk res newIndex => rfl

theorem getNextProxyAgent_of_ne_nil (agentOk : String → Bool) (pool : List ProxyEntry)
    (st : RouterState) (hpool : pool ≠ []) :
    getNextProxyAgent agentOk (some pool) st = scanPool agentOk pool (snapshotCheck pool st) := by
  have hbody : getNextProxyAgent agentOk (some pool) st
      = if pool.length = 0 then (none, st) else scanPool agentOk pool (snapshotCheck pool st) := rfl
  rw [hbody, if_neg (fun h => hpool (List.length_eq_zero.mp h))]

/-! ### Additional helper for the streaming claim -/

theorem deobfuscateString_single_no_occurrence (pat repl s : String)
    (hpat : pat.data ≠ []) (hocc : ¬ (pat.data <:+: s.data)) :
    deobfuscateString [(pat, repl)] s = s := by
  apply string_data_inj
  rw [deobfuscateString_eq_obfuscateString, obfuscateString_data]
  show splitJoin pat.data repl.data s.data = s.data
  exact splitJoin_of_not_infix pat.data repl.data hpat s.data hocc

theorem tryCandidate_eq_none (agentOk : String → Bool) (pool : List ProxyEntry) (index : Nat)
    (hfail : ∀ p ∈ pool, p.url.elim True (fun u => jsTrim u = "" ∨ agentOk u = false)) :
    tryCandidate agentOk pool index = none := by
  unfold tryCandidate
  split
  · rfl
  · rename_i proxy hget
    have hmem : proxy ∈ pool := List.get?_mem hget
    have hp := hfail proxy hmem
    split
    · rfl
    · rename_i u hurl
      rw [hurl] at hp
      simp only [Option.elim] at hp
      by_cases htrim : jsTrim u = ""
      · rw [if_pos htrim]
      · rw [if_neg htrim]
        rcases hp with h | h
        · exact absurd h htrim
        · rw [if_neg (by simp [h])]

/-! ### Claim theorems -/

/-- Claim C1, counterexample: the round-trip property fails as stated.  The
single active, reversible rule `"b" -> "aa"` satisfies every stated side
condition (the pattern `"b"` is not a substring of any other pattern, there
being none, nor of the replacement `"aa"`; the input string `"ab"` does not
contain the replacement text `"aa"`), yet obfuscating the value `"ab"`
yields `"aaa"`, whose leftmost occurrence of `"aa"` starts one character
early, so de-obfuscation produces `"ba"`, not the original `"ab"`. -/
theorem claim_C1_counterexample :
    (¬ isSubstring "b" "aa")
    ∧ (¬ isSubstring "aa" "ab")
    ∧ deobfuscateResponseBody
        (buildResponseReplacements [⟨true, true, some [("b", "aa")]⟩])
        (obfuscateRequestBody
          (buildRequestReplacements [⟨true, true, some [("b", "aa")]⟩])
          (Value.vstr "ab"))
      = Value.vstr "ba"
    ∧ Value.vstr "ba" ≠ Value.vstr "ab" := by
  refine ⟨by decide, by decide, rfl, by simp⟩

/-- Claim C1, amended: the round-trip holds when, in addition to the stated
conditions (no pattern a substring of another pattern or of a replacement,
input strings free of replacement text), every rule is reversible and every
replacement is a single character that is distinct from the other rules'
replacement characters and occurs in no pattern.  Then
`deobfuscateResponseBody (obfuscateRequestBody x) = x` for every value tree
`x` whose strings contain no replacement character. -/
theorem claim_C1_roundtrip (prs : List (String × Char)) (x : Value)
    (hpat : ∀ pc ∈ prs, ∀ qc ∈ prs, pc ≠ qc → ¬ isSubstring pc.1 qc.1)
    (hrep : ∀ pc ∈ prs, ∀ qc ∈ prs, ¬ isSubstring pc.1 (String.singleton qc.2))
    (hdistinct : (prs.map Prod.snd).Nodup)
    (hfresh : ∀ pc ∈ prs, ∀ qc ∈ prs, pc.2 ∉ qc.1.data)
    (hx : ∀ s ∈ valueStrings x, ∀ pc ∈ prs, ¬ isSubstring (String.singleton pc.2) s) :
    deobfuscateResponseBody (buildResponseReplacements (mkRules prs))
      (obfuscateRequestBody (buildRequestReplacements (mkRules prs)) x) = x := by
  have hpne : ∀ pc ∈ prs, pc.1 ≠ "" := by
    intro pc hpc he
    exact hrep pc hpc pc hpc (by rw [he]; exact List.nil_infix)
  have hprs_nd : prs.Nodup := List.Nodup.of_map Prod.snd hdistinct
  have hfnd : (prs.map Prod.fst).Nodup := by
    show List.Pairwise (fun a b => a ≠ b) (prs.map Prod.fst)
    rw [List.pairwise_map]
    refine List.Pairwise.imp_of_mem ?_ hprs_nd
    intro a b ha hb hne h1
    exact hpat a ha b hb hne (by rw [h1]; exact List.infix_refl _)
  by_cases hemp : prs = []
  · subst hemp
    rfl
  · have hb1 := buildRequestReplacements_mkRules prs hfnd
    have hb2 := buildResponseReplacements_mkRules prs hdistinct
    have hlen1 : ¬ ((buildRequestReplacements (mkRules prs)).length = 0) := by
      rw [hb1]
      simp [hemp]
    have hlen2 : ¬ ((buildResponseReplacements (mkRules prs)).length = 0) := by
      rw [hb2]
      simp [hemp]
    unfold obfuscateRequestBody deobfuscateResponseBody
    rw [if_neg hlen1, if_neg hlen2, processObject_comp]
    apply processObject_id_of
    intro s hs
    refine roundtripString prs s hpne hfnd hdistinct hfresh ?_
    intro pc hpc hmem
    exact hx s hs pc hpc ((singleton_infix_iff pc.2 s.data).mpr hmem)

/-- Witness for the amended claim C1 at the rule set `[a -> Z]` and the
input tree `"abc"`. -/
theorem claim_C1_roundtrip_witness :
    (∀ pc ∈ ([("a", 'Z')] : List (String × Char)), ∀ qc ∈ ([("a", 'Z')] : List (String × Char)),
        pc ≠ qc → ¬ isSubstring pc.1 qc.1)
    ∧ (∀ pc ∈ ([("a", 'Z')] : List (String × Char)), ∀ qc ∈ ([("a", 'Z')] : List (String × Char)),
        ¬ isSubstring pc.1 (String.singleton qc.2))
    ∧ (([("a", 'Z')] : List (String × Char)).map Prod.snd).Nodup
    ∧ (∀ pc ∈ ([("a", 'Z')] : List (String × Char)), ∀ qc ∈ ([("a", 'Z')] : List (String × Char)),
        pc.2 ∉ qc.1.data)
    ∧ (∀ s ∈ valueStrings (Value.vstr "abc"), ∀ pc ∈ ([("a", 'Z')] : List (String × Char)),
        ¬ isSubstring (String.singleton pc.2) s)
    ∧ deobfuscateResponseBody (buildResponseReplacements (mkRules [("a", 'Z')]))
        (obfuscateRequestBody (buildRequestReplacements (mkRules [("a", 'Z')]))
          (Value.vstr "abc"))
      = Value.vstr "abc" :=
  ⟨by decide, by decide, by decide, by decide, by decide,
    claim_C1_roundtrip [("a", 'Z')] (Value.vstr "abc")
      (by decide) (by decide) (by decide) (by decide) (by decide)⟩

/-- Claim C2, counterexample: with the reversible rules `x -> y` and
`y -> z` loaded in that order, de-obfuscating the tree with value `"z"`
yields `"y"`, not `"x"`: the reverse dictionary `{y: x, z: y}` is iterated
in the same insertion order as the forward one, so the chain is undone by
only one step. -/
theorem claim_C2_counterexample :
    deobfuscateResponseBody (buildResponseReplacements (mkRules [("x", 'y'), ("y", 'z')]))
        (Value.vobj [("k", Value.vstr "z")])
      = Value.vobj [("k", Value.vstr "y")]
    ∧ Value.vobj [("k", Value.vstr "y")] ≠ Value.vobj [("k", Value.vstr "x")] := by
  refine ⟨rfl, by simp⟩

/-- Claim C2, amended: obfuscating `{"k": "x"}` under the rules
`[x -> y, y -> z]` chains to `{"k": "z"}` as claimed, but de-obfuscating
`{"k": "z"}` yields `{"k": "y"}` (one chain step undone), not `{"k": "x"}`. -/
theorem claim_C2_fixture :
    obfuscateRequestBody (buildRequestReplacements (mkRules [("x", 'y'), ("y", 'z')]))
        (Value.vobj [("k", Value.vstr "x")])
      = Value.vobj [("k", Value.vstr "z")]
    ∧ deobfuscateResponseBody (buildResponseReplacements (mkRules [("x", 'y'), ("y", 'z')]))
        (Value.vobj [("k", Value.vstr "z")])
      = Value.vobj [("k", Value.vstr "y")] :=
  ⟨rfl, rfl⟩

/-- Claim C3: when the forward dictionary is empty, `obfuscateRequestBody`
returns its argument unchanged, and when the reverse dictionary is empty,
`deobfuscateResponseBody` returns its argument unchanged, for every value
tree (the guard returns the body before any traversal takes place). -/
theorem claim_C3_identity (fwd rev : Dict) (x : Value) :
    (fwd = [] → obfuscateRequestBody fwd x = x)
    ∧ (rev = [] → deobfuscateResponseBody rev x = x) := by
  constructor
  · intro h
    rw [h]
    rfl
  · intro h
    rw [h]
    rfl

/-- Witness for claim C3 at the empty dictionaries and a sample tree. -/
theorem claim_C3_identity_witness :
    obfuscateRequestBody [] (Value.vstr "hi") = Value.vstr "hi"
    ∧ deobfuscateResponseBody [] (Value.vstr "hi") = Value.vstr "hi" :=
  ⟨(claim_C3_identity [] [] (Value.vstr "hi")).1 rfl,
    (claim_C3_identity [] [] (Value.vstr "hi")).2 rfl⟩

/-- Claim C4: the per-connection rewriter transforms every chunk
independently, one output chunk per input chunk, and with reverse pattern
`"secret"` the two consecutive chunks `"sec"` and `"ret"` are both emitted
unmodified: the pattern split across the chunk boundary is not matched. -/
theorem claim_C4_chunk_boundary (orig : String) (dict : Dict) (chunks : List String) :
    DeobfuscateTransform.transformStream [("secret", orig)] ["sec", "ret"] = ["sec", "ret"]
    ∧ DeobfuscateTransform.transformStream dict chunks
        = chunks.map (DeobfuscateTransform.transform dict) := by
  constructor
  · have h1 : deobfuscateString [("secret", orig)] "sec" = "sec" :=
      deobfuscateString_single_no_occurrence "secret" orig "sec" (by decide) (by decide)
    have h2 : deobfuscateString [("secret", orig)] "ret" = "ret" :=
      deobfuscateString_single_no_occurrence "secret" orig "ret" (by decide) (by decide)
    simp [DeobfuscateTransform.transformStream, DeobfuscateTransform.transform, h1, h2]
  · rfl

/-- Claim C5: with pool `[A, B]` where `A` has a blank url and `B` is
valid, a first call from the initial state returns `B` paired with its
entry and records cursor 0 (the index after `B`, wrapped); the next call
from that state skips `A` again and returns `B` again with cursor 0 — the
skipped entry never becomes the recorded rotation position. -/
theorem claim_C5_failover :
    getNextProxyAgent (fun _ => true)
        (some [⟨some "", none⟩, ⟨some "http://b", some "B"⟩]) initialRouterState
      = (some ("http://b", ⟨some "http://b", some "B"⟩),
          ⟨0, some [⟨some "", none⟩, ⟨some "http://b", some "B"⟩]⟩)
    ∧ getNextProxyAgent (fun _ => true)
        (some [⟨some "", none⟩, ⟨some "http://b", some "B"⟩])
        ⟨0, some [⟨some "", none⟩, ⟨some "http://b", some "B"⟩]⟩
      = (some ("http://b", ⟨some "http://b", some "B"⟩),
          ⟨0, some [⟨some "", none⟩, ⟨some "http://b", some "B"⟩]⟩) := by
  refine ⟨by decide, by decide⟩

/-- Claim C6: for every call with a non-empty pool from a reachable state
(one satisfying the cursor invariant), the resulting cursor lies in
`[0, pool.length)`, the invariant is preserved, and whenever the supplied
pool differs structurally from the recorded snapshot the call behaves
exactly like a call from the reset state `(0, new pool snapshot)` — the
cursor is reset to 0 before selection begins. -/
theorem claim_C6_cursor_invariant (agentOk : String → Bool) (pool : List ProxyEntry)
    (st : RouterState) (hpool : pool ≠ []) (hinv : RouterInv st) :
    (getNextProxyAgent agentOk (some pool) st).2.proxyIndex < pool.length
    ∧ RouterInv (getNextProxyAgent agentOk (some pool) st).2
    ∧ (some pool ≠ st.lastSnapshot →
        getNextProxyAgent agentOk (some pool) st
          = getNextProxyAgent agentOk (some pool) ⟨0, some pool⟩) := by
  have hscan := getNextProxyAgent_of_ne_nil agentOk pool st hpool
  have hidx : (snapshotCheck pool st).proxyIndex < pool.length :=
    snapshotCheck_idx_lt pool st hpool hinv
  have hlt : (scanPool agentOk pool (snapshotCheck pool st)).2.proxyIndex < pool.length :=
    scanPool_idx_lt agentOk pool (snapshotCheck pool st) hidx
  refine ⟨by rw [hscan]; exact hlt, ?_, ?_⟩
  · rw [hscan]
    intro P hP
    rw [scanPool_lastSnapshot, snapshotCheck_lastSnapshot] at hP
    have hPP : P = pool := (Option.some.inj hP).symm
    subst hPP
    exact hlt
  · intro hch
    rw [hscan, getNextProxyAgent_of_ne_nil agentOk pool ⟨0, some pool⟩ hpool,
      snapshotCheck_of_changed pool st hch, snapshotCheck_fixed pool]

/-- Witness for claim C6 at a one-element pool and the initial state. -/
theorem claim_C6_cursor_invariant_witness :
    (getNextProxyAgent (fun _ => true) (some [⟨some "u", none⟩]) initialRouterState).2.proxyIndex
        < ([⟨some "u", none⟩] : List ProxyEntry).length
    ∧ RouterInv (getNextProxyAgent (fun _ => true) (some [⟨some "u", none⟩]) initialRouterState).2
    ∧ (some [⟨some "u", none⟩] ≠ initialRouterState.lastSnapshot →
        getNextProxyAgent (fun _ => true) (some [⟨some "u", none⟩]) initialRouterState
          = getNextProxyAgent (fun _ => true) (some [⟨some "u", none⟩]) ⟨0, some [⟨some "u", none⟩]⟩) :=
  claim_C6_cursor_invariant (fun _ => true) [⟨some "u", none⟩] initialRouterState
    (by decide) (fun P h => nomatch h)

/-- Claim C7: a missing pool (config not an array) and an empty pool both
return no connector immediately with the state untouched, and when every
entry of a configured pool fails (missing or blank url, or connector
construction failure) the call returns no connector after its bounded scan
of `pool.length` candidates; in the model the function is total, so no
exception reaches the caller. -/
theorem claim_C7_exhaustion (agentOk : String → Bool) (st : RouterState) (pool : List ProxyEntry)
    (hfail : ∀ p ∈ pool, p.url.elim True (fun u => jsTrim u = "" ∨ agentOk u = false)) :
    getNextProxyAgent agentOk none st = (none, st)
    ∧ getNextProxyAgent agentOk (some []) st = (none, st)
    ∧ (getNextProxyAgent agentOk (some pool) st).1 = none := by
  refine ⟨rfl, rfl, ?_⟩
  by_cases hemp : pool = []
  · subst hemp
    rfl
  · rw [getNextProxyAgent_of_ne_nil agentOk pool st hemp]
    unfold scanPool
    have hnone : (List.range pool.length).findSome?
        (fun attempt => tryCandidate agentOk pool
          (((snapshotCheck pool st).proxyIndex + attempt) % pool.length)) = none := by
      rw [List.findSome?_eq_none_iff]
      intro a _
      exact tryCandidate_eq_none agentOk pool _ hfail
    rw [hnone]

/-- Witness for claim C7 at a pool whose first entry has no url and whose
second entry has a blank url. -/
theorem claim_C7_exhaustion_witness :
    (∀ p ∈ ([⟨none, none⟩, ⟨some " ", none⟩] : List ProxyEntry),
        p.url.elim True (fun u => jsTrim u = "" ∨ (fun _ => true) u = false))
    ∧ (getNextProxyAgent (fun _ => true) none initialRouterState = (none, initialRouterState)
      ∧ getNextProxyAgent (fun _ => true) (some []) initialRouterState
          = (none, initialRouterState)
      ∧ (getNextProxyAgent (fun _ => true)
          (some [⟨none, none⟩, ⟨some " ", none⟩]) initialRouterState).1 = none) :=
  have hfail : ∀ p ∈ ([⟨none, none⟩, ⟨some " ", none⟩] : List ProxyEntry),
      p.url.elim True (fun u => jsTrim u = "" ∨ (fun _ => true) u = false) := by
    intro p hp
    simp only [List.mem_cons, List.not_mem_nil, or_false] at hp
    rcases hp with rfl | rfl
    · exact trivial
    · exact Or.inl (by decide)
  ⟨hfail,
    claim_C7_exhaustion (fun _ => true) initialRouterState
      [⟨none, none⟩, ⟨some " ", none⟩] hfail⟩

/-- Claim C8: a rule with `active = false` contributes to neither
dictionary (deleting it from the rule list leaves both compiled
dictionaries unchanged); the forward dictionary maps every key to the value
written by the last active rule entry for that key (later rule wins), and
the reverse dictionary maps every replacement to the pattern of the last
active res-obfs rule producing it (a reverse-key collision is silently won
by the later rule), as expressed by lookup through the reversed entry
streams. -/
theorem claim_C8_compiler (rules l1 l2 : List RuleObj) (r : RuleObj) (k : String) :
    (r.active = false →
      buildRequestReplacements (l1 ++ r :: l2) = buildRequestReplacements (l1 ++ l2)
      ∧ buildResponseReplacements (l1 ++ r :: l2) = buildResponseReplacements (l1 ++ l2))
    ∧ lookupDict (buildRequestReplacements rules) k
        = lookupDict (forwardEntries rules).reverse k
    ∧ lookupDict (buildResponseReplacements rules) k
        = lookupDict (reverseEntries rules).reverse k := by
  refine ⟨fun h => ⟨buildRequestReplacements_skip_inactive l1 l2 r h,
      buildResponseReplacements_skip_inactive l1 l2 r h⟩, ?_, ?_⟩
  · exact (lookupDict_foldl_requestStep k rules []).trans (optOr_none_right _)
  · exact (lookupDict_foldl_responseStep k rules []).trans (optOr_none_right _)

/-- Witness for claim C8: two active rules with the same replacement
`"b"`; the reverse dictionary keeps the later pattern `"c"`, and dropping
an inactive rule changes nothing. -/
theorem claim_C8_compiler_witness :
    (buildRequestReplacements ([⟨true, true, some [("a", "b")]⟩] ++ ⟨false, true, some [("z", "w")]⟩
          :: [⟨true, true, some [("c", "b")]⟩])
        = buildRequestReplacements ([⟨true, true, some [("a", "b")]⟩]
            ++ [⟨true, true, some [("c", "b")]⟩])
      ∧ buildResponseReplacements ([⟨true, true, some [("a", "b")]⟩]
            ++ ⟨false, true, some [("z", "w")]⟩ :: [⟨true, true, some [("c", "b")]⟩])
        = buildResponseReplacements ([⟨true, true, some [("a", "b")]⟩]
            ++ [⟨true, true, some [("c", "b")]⟩]))
    ∧ lookupDict (buildRequestReplacements [⟨true, true, some [("a", "b")]⟩,
        ⟨false, true, some [("z", "w")]⟩, ⟨true, true, some [("c", "b")]⟩]) "a"
        = lookupDict (forwardEntries [⟨true, true, some [("a", "b")]⟩,
            ⟨false, true, some [("z", "w")]⟩, ⟨true, true, some [("c", "b")]⟩]).reverse "a"
    ∧ lookupDict (buildResponseReplacements [⟨true, true, some [("a", "b")]⟩,
        ⟨false, true, some [("z", "w")]⟩, ⟨true, true, some [("c", "b")]⟩]) "b"
        = lookupDict (reverseEntries [⟨true, true, some [("a", "b")]⟩,
            ⟨false, true, some [("z", "w")]⟩, ⟨true, true, some [("c", "b")]⟩]).reverse "b" :=
  ⟨(claim_C8_compiler [⟨true, true, some [("a", "b")]⟩, ⟨false, true, some [("z", "w")]⟩,
      ⟨true, true, some [("c", "b")]⟩] [⟨true, true, some [("a", "b")]⟩]
      [⟨true, true, some [("c", "b")]⟩] ⟨false, true, some [("z", "w")]⟩ "a").1 rfl,
    (claim_C8_compiler [⟨true, true, some [("a", "b")]⟩, ⟨false, true, some [("z", "w")]⟩,
      ⟨true, true, some [("c", "b")]⟩] [] [] ⟨false, true, some [("z", "w")]⟩ "a").2.1,
    (claim_C8_compiler [⟨true, true, some [("a", "b")]⟩, ⟨false, true, some [("z", "w")]⟩,
      ⟨true, true, some [("c", "b")]⟩] [] [] ⟨false, true, some [("z", "w")]⟩ "b").2.2⟩

/-- Claim C9: applying the tree transform with the single rule `x -> y` to
`{"a": ["x", {"b": "x"}], "c": null, "d": 5}` rewrites the strings at every
depth, leaves `null` and `5` untouched, and preserves array order and key
order. -/
theorem claim_C9_tree_fixture :
    obfuscateRequestBody [("x", "y")]
        (Value.vobj [("a", Value.varr [Value.vstr "x", Value.vobj [("b", Value.vstr "x")]]),
          ("c", Value.vnull), ("d", Value.vnum 5)])
      = Value.vobj [("a", Value.varr [Value.vstr "y", Value.vobj [("b", Value.vstr "y")]]),
          ("c", Value.vnull), ("d", Value.vnum 5)] :=
  rfl

/-- Claim C10: in the second file variant, whenever the req.json flag
`res-obfuscation` is false, `deobfuscateResponseBody` returns the body
unchanged and the streaming transform returns every chunk unchanged, for
every input and however many reverse replacement rules are loaded. -/
theorem claim_C10_flag_gate (dict : Dict) (body : Value) (chunk : String)
    (chunks : List String) :
    V2.deobfuscateResponseBody false dict body = body
    ∧ V2.transform false dict chunk = chunk
    ∧ V2.transformStream false dict chunks = chunks := by
  refine ⟨rfl, rfl, ?_⟩
  have hid : V2.transform false dict = fun chunk => chunk := by
    funext chunk
    rfl
  show chunks.map (V2.transform false dict) = chunks
  rw [hid]
  simp
